import Mathlib

/-!
# Verification of the `priority-checker` block-priority violation pass

Shallow embedding of `src/main.rs`: the per-account last-access state
machine driven by `main`'s two per-transaction loops (writable accounts,
then readonly accounts), the violation bookkeeping (`violated_accounts`,
`violating_transaction_signatures`), the report counts, and the pure
priority resolver `get_priority`.

Account public keys and signatures are opaque equality-comparable
identifiers; we model both as `Nat`.  `u64`/`u128` values are modelled as
`Nat` with explicit `2 ^ 64` / `2 ^ 128` bounds where the Rust arithmetic
can overflow or saturate.  The Rust `HashMap`s are modelled as association
lists with unique keys, with `insert` replacing the value at an existing
key (as `Entry::Occupied` + `entry.insert` does) and appending a fresh
binding otherwise (`Entry::Vacant`).
-/

namespace PriorityChecker

/-- Opaque account identifier (`Pubkey` in the source). -/
abbrev Pubkey := Nat

/-- Opaque transaction signature (`Signature` in the source). -/
abbrev Signature := Nat

/-- `enum LastAccess { Read, Write }` from the source. -/
inductive LastAccess where
  | Read : LastAccess
  | Write : LastAccess
deriving DecidableEq, Repr

/-- `struct LastAccessPriority { last_access, priority }` from the source. -/
structure LastAccessPriority where
  last_access : LastAccess
  priority : Nat
deriving DecidableEq, Repr

/-- Association-list lookup, modelling `HashMap` key lookup. -/
def alookup {α : Type} : List (Pubkey × α) → Pubkey → Option α
  | [], _ => none
  | (k, v) :: rest, a => if k = a then some v else alookup rest a

/-- Association-list insert that replaces the binding at an existing key and
otherwise appends a new binding, modelling `HashMap` insertion through the
`Entry` API (`entry.insert` on `Occupied`, `entry.insert` on `Vacant`). -/
def ainsert {α : Type} : List (Pubkey × α) → Pubkey → α → List (Pubkey × α)
  | [], a, v => [(a, v)]
  | (k, w) :: rest, a, v =>
      if k = a then (a, v) :: rest else (k, w) :: ainsert rest a v

/-- Modelling `violated_accounts.entry(k).or_default().push(e)`: append `e`
to the list stored at key `k`, creating the binding with `[e]` when the key
is absent. -/
def apush : List (Pubkey × List (Nat × Nat)) → Pubkey → Nat × Nat →
    List (Pubkey × List (Nat × Nat))
  | [], a, e => [(a, [e])]
  | (k, es) :: rest, a, e =>
      if k = a then (k, es ++ [e]) :: rest else (k, es) :: apush rest a e

/-- The mutable state threaded through the two account loops of one
transaction: the access map, the violated-accounts map, and the
per-transaction `is_violation` flag (initialised to `false` at the top of
the transaction loop in `main`). -/
structure TxState where
  last_access_map : List (Pubkey × LastAccessPriority)
  violated_accounts : List (Pubkey × List (Nat × Nat))
  is_violation : Bool
deriving DecidableEq, Repr

/-- One iteration of the writable-accounts loop of `main` (lines 90–118):
on an occupied entry, record a violation when the stored priority is
strictly below the current one, then unconditionally store
`{Write, priority}`; on a vacant entry just store `{Write, priority}`. -/
def writeTouch (priority : Nat) (s : TxState) (a : Pubkey) : TxState :=
  match alookup s.last_access_map a with
  | some entry =>
      let s' :=
        if entry.priority < priority then
          { s with
              is_violation := true
              violated_accounts := apush s.violated_accounts a (entry.priority, priority) }
        else s
      { s' with last_access_map := ainsert s'.last_access_map a ⟨LastAccess.Write, priority⟩ }
  | none =>
      { s with last_access_map := ainsert s.last_access_map a ⟨LastAccess.Write, priority⟩ }

/-- One iteration of the readonly-accounts loop of `main` (lines 120–150):
on an occupied entry, record a violation when the stored access kind is
`Write` and the stored priority is strictly below the current one, then
unconditionally store `{Read, priority}`; on a vacant entry just store
`{Read, priority}`. -/
def readTouch (priority : Nat) (s : TxState) (a : Pubkey) : TxState :=
  match alookup s.last_access_map a with
  | some entry =>
      let s' :=
        if entry.last_access = LastAccess.Write ∧ entry.priority < priority then
          { s with
              is_violation := true
              violated_accounts := apush s.violated_accounts a (entry.priority, priority) }
        else s
      { s' with last_access_map := ainsert s'.last_access_map a ⟨LastAccess.Read, priority⟩ }
  | none =>
      { s with last_access_map := ainsert s.last_access_map a ⟨LastAccess.Read, priority⟩ }

/-- A transaction as consumed by the pass: its (first) signature, its
resolved priority (`get_priority`'s result), and the loaded writable and
readonly address lists, in the order provided by the block source. -/
structure Transaction where
  signature : Signature
  priority : Nat
  writable : List Pubkey
  readonly : List Pubkey
deriving DecidableEq, Repr

/-- The per-block state of the pass: `last_access_map`,
`violated_accounts` and `violating_transaction_signatures` from `main`. -/
structure PassState where
  last_access_map : List (Pubkey × LastAccessPriority)
  violated_accounts : List (Pubkey × List (Nat × Nat))
  violating_transaction_signatures : List Signature
deriving DecidableEq, Repr

/-- The body of the two account loops for one transaction: the writable
loop runs first over `tx.writable`, then the readonly loop over
`tx.readonly`, threading the `TxState` whose `is_violation` flag starts
`false`. -/
def txTouchResult (ps : PassState) (tx : Transaction) : TxState :=
  tx.readonly.foldl (readTouch tx.priority)
    (tx.writable.foldl (writeTouch tx.priority)
      ⟨ps.last_access_map, ps.violated_accounts, false⟩)

/-- One iteration of the transaction loop of `main` (lines 63–155): run
both account loops, then push the transaction's signature onto
`violating_transaction_signatures` when `is_violation` was set. -/
def processTransaction (ps : PassState) (tx : Transaction) : PassState :=
  let s := txTouchResult ps tx
  { last_access_map := s.last_access_map
    violated_accounts := s.violated_accounts
    violating_transaction_signatures :=
      if s.is_violation then ps.violating_transaction_signatures ++ [tx.signature]
      else ps.violating_transaction_signatures }

/-- The initial pass state of `main`: all three collections empty. -/
def initialState : PassState := ⟨[], [], []⟩

/-- The transaction loop of `main` started from an arbitrary state. -/
def runBlockFrom (ps : PassState) (txs : List Transaction) : PassState :=
  txs.foldl processTransaction ps

/-- The whole pass over a block's ordered transaction list. -/
def runBlock (txs : List Transaction) : PassState :=
  runBlockFrom initialState txs

/-- The count printed by `main`, both alone in count-only mode (line 158)
and as `N` in the full-report header (lines 165–169):
`violating_transaction_signatures.len()`. -/
def reportedViolationCount (ps : PassState) : Nat :=
  ps.violating_transaction_signatures.length

/-- Total number of violation entries stored in a violated-accounts map. -/
def entryCount (v : List (Pubkey × List (Nat × Nat))) : Nat :=
  (v.map (fun kv => kv.2.length)).sum

/-- Sum of the number of `ViolationEntry` items across all accounts of the
violated-accounts mapping of a pass state. -/
def totalViolationEntries (ps : PassState) : Nat :=
  entryCount ps.violated_accounts

/-! ## The priority resolver `get_priority` (lines 183–214) -/

/-- One instruction of a transaction's instruction list, as `get_priority`
classifies it.  `requestUnitsDeprecated` and `setComputeUnitPrice` are the
two `Ok` decode outcomes under the compute-budget program id that the
`match` recognizes; `unrecognizedComputeBudget` covers the remaining cases
under that program id, which the `_ => {}` arm skips (other decoded
compute-budget variants as well as failed decodes); `otherProgram` is an
instruction whose program id fails `compute_budget::check_id`. -/
inductive Instruction where
  | requestUnitsDeprecated (units : Nat) (additional_fee : Nat) : Instruction
  | setComputeUnitPrice (price : Nat) : Instruction
  | unrecognizedComputeBudget : Instruction
  | otherProgram : Instruction
deriving DecidableEq, Repr

/-- `u128::MAX`, the saturation bound of `u128::saturating_mul`. -/
def U128_MAX : Nat := 2 ^ 128 - 1

/-- `x.saturating_mul(y)` on `u128` operands already in range. -/
def saturatingMulU128 (x y : Nat) : Nat := min (x * y) U128_MAX

/-- `x.checked_div(y)` on `u128`: `none` exactly when `y = 0`. -/
def checkedDivU128 (x y : Nat) : Option Nat :=
  if y = 0 then none else some (x / y)

/-- The arithmetic of the `RequestUnitsDeprecated` arm (lines 191–203):
widen `additional_fee` to `u128`, `saturating_mul` by `1_000_000`,
`checked_div` by `units` (fatal on `none`, i.e. division by zero), then
`try_into` a `u64` (fatal when the quotient does not fit).  `none` models
the `exit(1)` paths. -/
def requestUnitsPriority (units additional_fee : Nat) : Option Nat :=
  match checkedDivU128 (saturatingMulU128 additional_fee 1000000) units with
  | none => none
  | some q => if q < 2 ^ 64 then some q else none

/-- `get_priority` (lines 183–214): scan the instruction list in order; on
the first recognized compute-budget directive return its computed priority
(`none` models the fatal arithmetic-failure exits); skip everything else;
return `0` when the scan finds nothing. -/
def get_priority : List Instruction → Option Nat
  | [] => some 0
  | ix :: rest =>
      match ix with
      | Instruction.requestUnitsDeprecated units additional_fee =>
          requestUnitsPriority units additional_fee
      | Instruction.setComputeUnitPrice price => some price
      | Instruction.unrecognizedComputeBudget => get_priority rest
      | Instruction.otherProgram => get_priority rest

/-- An instruction the `get_priority` scan recognizes and returns on. -/
def recognizedDirective : Instruction → Prop
  | Instruction.requestUnitsDeprecated _ _ => True
  | Instruction.setComputeUnitPrice _ => True
  | Instruction.unrecognizedComputeBudget => False
  | Instruction.otherProgram => False

instance (ix : Instruction) : Decidable (recognizedDirective ix) := by
  cases ix <;> simp [recognizedDirective] <;> infer_instance

/-- The priority `get_priority` computes from a single recognized
directive. -/
def directivePriority : Instruction → Option Nat
  | Instruction.requestUnitsDeprecated units additional_fee =>
      requestUnitsPriority units additional_fee
  | Instruction.setComputeUnitPrice price => some price
  | Instruction.unrecognizedComputeBudget => some 0
  | Instruction.otherProgram => some 0

/-! ## Auxiliary predicates and counters used by the statements -/

/-- The number of transactions of `txs` that produce at least one new
violation entry when the pass runs through them starting from `ps`. -/
def countViolatingTransactions : PassState → List Transaction → Nat
  | _, [] => 0
  | ps, tx :: rest =>
      (if totalViolationEntries ps < totalViolationEntries (processTransaction ps tx)
       then 1 else 0)
        + countViolatingTransactions (processTransaction ps tx) rest

/-- Every violation entry pair stored in a violated-accounts map has its
first (old-priority) component strictly below its second (new-priority)
component. -/
def entriesIncreasing (v : List (Pubkey × List (Nat × Nat))) : Prop :=
  ∀ kv ∈ v, ∀ e ∈ kv.2, e.1 < e.2

/-- An access map that mentions only account `a`, whose record (when
present) carries priority at least `p`. -/
def singleAccountMap (m : List (Pubkey × LastAccessPriority)) (a : Pubkey)
    (p : Nat) : Prop :=
  m = [] ∨ ∃ r, m = [(a, r)] ∧ p ≤ r.priority

/-! ## Association-list lemmas -/

@[simp]
theorem alookup_ainsert_self {α : Type} (l : List (Pubkey × α)) (a : Pubkey) (v : α) :
    alookup (ainsert l a v) a = some v := by
  induction l with
  | nil => simp [ainsert, alookup]
  | cons kv rest ih =>
      obtain ⟨k, w⟩ := kv
      by_cases h : k = a <;> simp [ainsert, alookup, h, ih]

theorem alookup_ainsert_ne {α : Type} (l : List (Pubkey × α)) (a b : Pubkey) (v : α)
    (hne : b ≠ a) : alookup (ainsert l a v) b = alookup l b := by
  induction l with
  | nil => simp [ainsert, alookup, Ne.symm hne]
  | cons kv rest ih =>
      obtain ⟨k, w⟩ := kv
      by_cases h : k = a
      · subst h
        simp [ainsert, alookup, Ne.symm hne]
      · simp [ainsert, alookup, h, ih]

theorem ainsert_ainsert {α : Type} (l : List (Pubkey × α)) (a : Pubkey) (v w : α) :
    ainsert (ainsert l a v) a w = ainsert l a w := by
  induction l with
  | nil => simp [ainsert]
  | cons kv rest ih =>
      obtain ⟨k, u⟩ := kv
      by_cases h : k = a <;> simp [ainsert, h, ih]

theorem mem_keys_ainsert {α : Type} (l : List (Pubkey × α)) (a x : Pubkey) (v : α)
    (hx : x ∈ (ainsert l a v).map Prod.fst) : x ∈ l.map Prod.fst ∨ x = a := by
  induction l with
  | nil =>
      simp only [ainsert, List.map_cons, List.map_nil, List.mem_singleton] at hx
      exact Or.inr hx
  | cons kv rest ih =>
      obtain ⟨k, w⟩ := kv
      by_cases h : k = a
      · rw [show ainsert ((k, w) :: rest) a v = (a, v) :: rest by simp [ainsert, h]] at hx
        simp only [List.map_cons, List.mem_cons] at hx ⊢
        subst h
        tauto
      · rw [show ainsert ((k, w) :: rest) a v = (k, w) :: ainsert rest a v by
            simp [ainsert, h]] at hx
        simp only [List.map_cons, List.mem_cons] at hx ⊢
        rcases hx with hx | hx
        · tauto
        · rcases ih hx with h' | h' <;> tauto

theorem nodup_keys_ainsert {α : Type} (l : List (Pubkey × α)) (a : Pubkey) (v : α)
    (h : (l.map Prod.fst).Nodup) : ((ainsert l a v).map Prod.fst).Nodup := by
  induction l with
  | nil => simp [ainsert]
  | cons kv rest ih =>
      obtain ⟨k, w⟩ := kv
      simp only [List.map_cons, List.nodup_cons] at h
      by_cases hk : k = a
      · subst hk
        simpa [ainsert] using h
      · simp only [ainsert, hk, if_false, List.map_cons, List.nodup_cons]
        refine ⟨fun hmem => ?_, ih h.2⟩
        rcases mem_keys_ainsert rest a k v hmem with h' | h'
        · exact h.1 h'
        · exact hk h'

@[simp]
theorem alookup_apush_self (l : List (Pubkey × List (Nat × Nat))) (a : Pubkey)
    (e : Nat × Nat) :
    alookup (apush l a e) a = some ((alookup l a).getD [] ++ [e]) := by
  induction l with
  | nil => simp [apush, alookup]
  | cons kv rest ih =>
      obtain ⟨k, es⟩ := kv
      by_cases h : k = a <;> simp [apush, alookup, h, ih]

theorem alookup_apush_ne (l : List (Pubkey × List (Nat × Nat))) (a b : Pubkey)
    (e : Nat × Nat) (hne : b ≠ a) : alookup (apush l a e) b = alookup l b := by
  induction l with
  | nil => simp [apush, alookup, Ne.symm hne]
  | cons kv rest ih =>
      obtain ⟨k, es⟩ := kv
      by_cases h : k = a
      · subst h
        simp [apush, alookup, Ne.symm hne]
      · simp [apush, alookup, h, ih]

theorem entryCount_apush (l : List (Pubkey × List (Nat × Nat))) (a : Pubkey)
    (e : Nat × Nat) : entryCount (apush l a e) = entryCount l + 1 := by
  induction l with
  | nil => simp [apush, entryCount]
  | cons kv rest ih =>
      obtain ⟨k, es⟩ := kv
      by_cases h : k = a
      · simp [apush, entryCount, h]
        omega
      · simp only [apush, h, if_false]
        simp only [entryCount, List.map_cons, List.sum_cons] at ih ⊢
        omega

theorem entriesIncreasing_apush (l : List (Pubkey × List (Nat × Nat))) (a : Pubkey)
    (e : Nat × Nat) (hl : entriesIncreasing l) (he : e.1 < e.2) :
    entriesIncreasing (apush l a e) := by
  induction l with
  | nil =>
      intro kv hkv e' he'
      simp only [apush, List.mem_singleton] at hkv
      subst hkv
      simp only [List.mem_singleton] at he'
      subst he'
      exact he
  | cons kv rest ih =>
      obtain ⟨k, es⟩ := kv
      have hrest : entriesIncreasing rest := fun kv h => hl kv (List.mem_cons_of_mem _ h)
      by_cases h : k = a
      · intro kv' hkv' e' he'
        simp only [apush, h, if_true] at hkv'
        rcases List.mem_cons.mp hkv' with h' | h'
        · subst h'
          rcases List.mem_append.mp he' with h'' | h''
          · exact hl (k, es) (List.mem_cons_self _ _) e' h''
          · simp only [List.mem_singleton] at h''
            subst h''
            exact he
        · exact hrest kv' h' e' he'
      · intro kv' hkv' e' he'
        simp only [apush, h, if_false] at hkv'
        rcases List.mem_cons.mp hkv' with h' | h'
        · subst h'
          exact hl (k, es) (List.mem_cons_self _ _) e' he'
        · exact ih hrest kv' h' e' he'

/-! ## Case analysis of the two touch operations -/

theorem writeTouch_of_none (p : Nat) (s : TxState) (a : Pubkey)
    (h : alookup s.last_access_map a = none) :
    writeTouch p s a =
      { s with last_access_map := ainsert s.last_access_map a ⟨LastAccess.Write, p⟩ } := by
  simp [writeTouch, h]

theorem writeTouch_of_lt (p : Nat) (s : TxState) (a : Pubkey) (r : LastAccessPriority)
    (h : alookup s.last_access_map a = some r) (hlt : r.priority < p) :
    writeTouch p s a =
      ⟨ainsert s.last_access_map a ⟨LastAccess.Write, p⟩,
        apush s.violated_accounts a (r.priority, p), true⟩ := by
  simp [writeTouch, h, hlt]

theorem writeTouch_of_ge (p : Nat) (s : TxState) (a : Pubkey) (r : LastAccessPriority)
    (h : alookup s.last_access_map a = some r) (hge : ¬ r.priority < p) :
    writeTouch p s a =
      { s with last_access_map := ainsert s.last_access_map a ⟨LastAccess.Write, p⟩ } := by
  simp [writeTouch, h, hge]

theorem readTouch_of_none (p : Nat) (s : TxState) (a : Pubkey)
    (h : alookup s.last_access_map a = none) :
    readTouch p s a =
      { s with last_access_map := ainsert s.last_access_map a ⟨LastAccess.Read, p⟩ } := by
  simp [readTouch, h]

theorem readTouch_of_writeLt (p : Nat) (s : TxState) (a : Pubkey) (r : LastAccessPriority)
    (h : alookup s.last_access_map a = some r)
    (hc : r.last_access = LastAccess.Write ∧ r.priority < p) :
    readTouch p s a =
      ⟨ainsert s.last_access_map a ⟨LastAccess.Read, p⟩,
        apush s.violated_accounts a (r.priority, p), true⟩ := by
  simp [readTouch, h, hc, hc.1, hc.2]

theorem readTouch_of_noConflict (p : Nat) (s : TxState) (a : Pubkey)
    (r : LastAccessPriority) (h : alookup s.last_access_map a = some r)
    (hc : ¬ (r.last_access = LastAccess.Write ∧ r.priority < p)) :
    readTouch p s a =
      { s with last_access_map := ainsert s.last_access_map a ⟨LastAccess.Read, p⟩ } := by
  simp [readTouch, h, hc]

theorem writeTouch_last_access_map (p : Nat) (s : TxState) (a : Pubkey) :
    (writeTouch p s a).last_access_map =
      ainsert s.last_access_map a ⟨LastAccess.Write, p⟩ := by
  rcases h : alookup s.last_access_map a with _ | r
  · rw [writeTouch_of_none p s a h]
  · by_cases hlt : r.priority < p
    · rw [writeTouch_of_lt p s a r h hlt]
    · rw [writeTouch_of_ge p s a r h hlt]

theorem readTouch_last_access_map (p : Nat) (s : TxState) (a : Pubkey) :
    (readTouch p s a).last_access_map =
      ainsert s.last_access_map a ⟨LastAccess.Read, p⟩ := by
  rcases h : alookup s.last_access_map a with _ | r
  · rw [readTouch_of_none p s a h]
  · by_cases hc : r.last_access = LastAccess.Write ∧ r.priority < p
    · rw [readTouch_of_writeLt p s a r h hc]
    · rw [readTouch_of_noConflict p s a r h hc]

/-! ## Violation flag vs. entry count -/

theorem decide_lt_or (x y z : Nat) (hxy : x ≤ y) (hyz : y ≤ z) :
    (decide (x < y) || decide (y < z)) = decide (x < z) := by
  by_cases h5 : x < y <;> by_cases h6 : y < z <;> simp [h5, h6] <;> omega

theorem writeTouch_ec_flag (p : Nat) (s : TxState) (a : Pubkey) :
    entryCount s.violated_accounts ≤ entryCount (writeTouch p s a).violated_accounts ∧
    (writeTouch p s a).is_violation =
      (s.is_violation ||
        decide (entryCount s.violated_accounts <
          entryCount (writeTouch p s a).violated_accounts)) := by
  rcases h : alookup s.last_access_map a with _ | r
  · rw [writeTouch_of_none p s a h]
    simp
  · by_cases hlt : r.priority < p
    · rw [writeTouch_of_lt p s a r h hlt]
      simp [entryCount_apush]
    · rw [writeTouch_of_ge p s a r h hlt]
      simp

theorem readTouch_ec_flag (p : Nat) (s : TxState) (a : Pubkey) :
    entryCount s.violated_accounts ≤ entryCount (readTouch p s a).violated_accounts ∧
    (readTouch p s a).is_violation =
      (s.is_violation ||
        decide (entryCount s.violated_accounts <
          entryCount (readTouch p s a).violated_accounts)) := by
  rcases h : alookup s.last_access_map a with _ | r
  · rw [readTouch_of_none p s a h]
    simp
  · by_cases hc : r.last_access = LastAccess.Write ∧ r.priority < p
    · rw [readTouch_of_writeLt p s a r h hc]
      simp [entryCount_apush]
    · rw [readTouch_of_noConflict p s a r h hc]
      simp

theorem foldl_ec_flag (f : TxState → Pubkey → TxState)
    (hf : ∀ s a,
      entryCount s.violated_accounts ≤ entryCount (f s a).violated_accounts ∧
      (f s a).is_violation =
        (s.is_violation ||
          decide (entryCount s.violated_accounts < entryCount (f s a).violated_accounts)))
    (l : List Pubkey) : ∀ s : TxState,
    entryCount s.violated_accounts ≤ entryCount (l.foldl f s).violated_accounts ∧
    (l.foldl f s).is_violation =
      (s.is_violation ||
        decide (entryCount s.violated_accounts <
          entryCount (l.foldl f s).violated_accounts)) := by
  induction l with
  | nil =>
      intro s
      simp
  | cons a l ih =>
      intro s
      obtain ⟨h1, h2⟩ := hf s a
      obtain ⟨h3, h4⟩ := ih (f s a)
      simp only [List.foldl_cons]
      refine ⟨le_trans h1 h3, ?_⟩
      rw [h4, h2, Bool.or_assoc, decide_lt_or _ _ _ h1 h3]

theorem txTouchResult_ec_flag (ps : PassState) (tx : Transaction) :
    totalViolationEntries ps ≤ entryCount (txTouchResult ps tx).violated_accounts ∧
    (txTouchResult ps tx).is_violation =
      decide (totalViolationEntries ps <
        entryCount (txTouchResult ps tx).violated_accounts) := by
  obtain ⟨h1, h2⟩ :=
    foldl_ec_flag (writeTouch tx.priority) (writeTouch_ec_flag tx.priority) tx.writable
      ⟨ps.last_access_map, ps.violated_accounts, false⟩
  obtain ⟨h3, h4⟩ :=
    foldl_ec_flag (readTouch tx.priority) (readTouch_ec_flag tx.priority) tx.readonly
      (tx.writable.foldl (writeTouch tx.priority)
        ⟨ps.last_access_map, ps.violated_accounts, false⟩)
  refine ⟨le_trans h1 h3, ?_⟩
  show (txTouchResult ps tx).is_violation = _
  unfold txTouchResult
  rw [h4, h2]
  simp only [Bool.false_or]
  exact decide_lt_or _ _ _ h1 h3

theorem processTransaction_sigs (ps : PassState) (tx : Transaction) :
    (processTransaction ps tx).violating_transaction_signatures =
      if totalViolationEntries ps < totalViolationEntries (processTransaction ps tx)
      then ps.violating_transaction_signatures ++ [tx.signature]
      else ps.violating_transaction_signatures := by
  obtain ⟨h1, h2⟩ := txTouchResult_ec_flag ps tx
  have hv : totalViolationEntries (processTransaction ps tx) =
      entryCount (txTouchResult ps tx).violated_accounts := rfl
  rw [hv]
  show (if (txTouchResult ps tx).is_violation then _ else _) = _
  rw [h2]
  by_cases h : totalViolationEntries ps <
      entryCount (txTouchResult ps tx).violated_accounts <;> simp [h]

theorem runBlockFrom_sigs_length (txs : List Transaction) : ∀ ps : PassState,
    (runBlockFrom ps txs).violating_transaction_signatures.length =
      ps.violating_transaction_signatures.length + countViolatingTransactions ps txs := by
  induction txs with
  | nil =>
      intro ps
      simp [runBlockFrom, countViolatingTransactions]
  | cons tx rest ih =>
      intro ps
      simp only [runBlockFrom, List.foldl_cons, countViolatingTransactions]
      have hrest := ih (processTransaction ps tx)
      simp only [runBlockFrom] at hrest
      rw [hrest, processTransaction_sigs ps tx]
      by_cases hv : totalViolationEntries ps <
          totalViolationEntries (processTransaction ps tx)
      · simp [hv]
        omega
      · simp [hv]

/-! ## Access-map contents after the account loops -/

theorem foldl_writeTouch_alookup (p : Nat) (l : List Pubkey) : ∀ (s : TxState) (x : Pubkey),
    alookup (l.foldl (writeTouch p) s).last_access_map x =
      if x ∈ l then some ⟨LastAccess.Write, p⟩ else alookup s.last_access_map x := by
  induction l with
  | nil =>
      intro s x
      simp
  | cons a l ih =>
      intro s x
      simp only [List.foldl_cons]
      rw [ih]
      by_cases hx : x ∈ l
      · simp [hx]
      · by_cases hxa : x = a
        · subst hxa
          simp [hx, writeTouch_last_access_map]
        · simp [hx, hxa, writeTouch_last_access_map, alookup_ainsert_ne _ _ _ _ hxa]

theorem foldl_readTouch_alookup (p : Nat) (l : List Pubkey) : ∀ (s : TxState) (x : Pubkey),
    alookup (l.foldl (readTouch p) s).last_access_map x =
      if x ∈ l then some ⟨LastAccess.Read, p⟩ else alookup s.last_access_map x := by
  induction l with
  | nil =>
      intro s x
      simp
  | cons a l ih =>
      intro s x
      simp only [List.foldl_cons]
      rw [ih]
      by_cases hx : x ∈ l
      · simp [hx]
      · by_cases hxa : x = a
        · subst hxa
          simp [hx, readTouch_last_access_map]
        · simp [hx, hxa, readTouch_last_access_map, alookup_ainsert_ne _ _ _ _ hxa]

theorem txTouchResult_alookup (ps : PassState) (tx : Transaction) (x : Pubkey) :
    alookup (txTouchResult ps tx).last_access_map x =
      if x ∈ tx.readonly then some ⟨LastAccess.Read, tx.priority⟩
      else if x ∈ tx.writable then some ⟨LastAccess.Write, tx.priority⟩
      else alookup ps.last_access_map x := by
  unfold txTouchResult
  rw [foldl_readTouch_alookup, foldl_writeTouch_alookup]

theorem foldl_touch_nodup (f : TxState → Pubkey → TxState)
    (hf : ∀ s a, ∃ v, (f s a).last_access_map = ainsert s.last_access_map a v)
    (l : List Pubkey) : ∀ s : TxState,
    (s.last_access_map.map Prod.fst).Nodup →
    ((l.foldl f s).last_access_map.map Prod.fst).Nodup := by
  induction l with
  | nil =>
      intro s h
      simpa using h
  | cons a l ih =>
      intro s h
      simp only [List.foldl_cons]
      apply ih
      obtain ⟨v, hv⟩ := hf s a
      rw [hv]
      exact nodup_keys_ainsert _ _ _ h

theorem txTouchResult_nodup (ps : PassState) (tx : Transaction)
    (h : (ps.last_access_map.map Prod.fst).Nodup) :
    ((txTouchResult ps tx).last_access_map.map Prod.fst).Nodup := by
  unfold txTouchResult
  apply foldl_touch_nodup (readTouch tx.priority)
    (fun s a => ⟨_, readTouch_last_access_map tx.priority s a⟩)
  apply foldl_touch_nodup (writeTouch tx.priority)
    (fun s a => ⟨_, writeTouch_last_access_map tx.priority s a⟩)
  exact h

/-! ## Violation entries are increasing pairs -/

theorem writeTouch_entriesIncreasing (p : Nat) (s : TxState) (a : Pubkey)
    (h : entriesIncreasing s.violated_accounts) :
    entriesIncreasing (writeTouch p s a).violated_accounts := by
  rcases hl : alookup s.last_access_map a with _ | r
  · rw [writeTouch_of_none p s a hl]
    exact h
  · by_cases hlt : r.priority < p
    · rw [writeTouch_of_lt p s a r hl hlt]
      exact entriesIncreasing_apush _ _ _ h hlt
    · rw [writeTouch_of_ge p s a r hl hlt]
      exact h

theorem readTouch_entriesIncreasing (p : Nat) (s : TxState) (a : Pubkey)
    (h : entriesIncreasing s.violated_accounts) :
    entriesIncreasing (readTouch p s a).violated_accounts := by
  rcases hl : alookup s.last_access_map a with _ | r
  · rw [readTouch_of_none p s a hl]
    exact h
  · by_cases hc : r.last_access = LastAccess.Write ∧ r.priority < p
    · rw [readTouch_of_writeLt p s a r hl hc]
      exact entriesIncreasing_apush _ _ _ h hc.2
    · rw [readTouch_of_noConflict p s a r hl hc]
      exact h

theorem foldl_entriesIncreasing (f : TxState → Pubkey → TxState)
    (hf : ∀ s a, entriesIncreasing s.violated_accounts →
      entriesIncreasing (f s a).violated_accounts)
    (l : List Pubkey) : ∀ s : TxState,
    entriesIncreasing s.violated_accounts →
    entriesIncreasing ((l.foldl f s)).violated_accounts := by
  induction l with
  | nil =>
      intro s h
      simpa using h
  | cons a l ih =>
      intro s h
      simp only [List.foldl_cons]
      exact ih _ (hf s a h)

theorem runBlockFrom_entriesIncreasing (txs : List Transaction) : ∀ ps : PassState,
    entriesIncreasing ps.violated_accounts →
    entriesIncreasing (runBlockFrom ps txs).violated_accounts := by
  induction txs with
  | nil =>
      intro ps h
      simpa [runBlockFrom] using h
  | cons tx rest ih =>
      intro ps h
      simp only [runBlockFrom, List.foldl_cons]
      have hstep : entriesIncreasing (processTransaction ps tx).violated_accounts := by
        show entriesIncreasing (txTouchResult ps tx).violated_accounts
        unfold txTouchResult
        apply foldl_entriesIncreasing (readTouch tx.priority)
          (readTouch_entriesIncreasing tx.priority)
        apply foldl_entriesIncreasing (writeTouch tx.priority)
          (writeTouch_entriesIncreasing tx.priority)
        exact h
      exact ih (processTransaction ps tx) hstep

/-! ## Non-increasing single-account blocks are violation-free -/

theorem singleAccountMap_mono (m : List (Pubkey × LastAccessPriority)) (a : Pubkey)
    (p q : Nat) (hpq : p ≤ q) (h : singleAccountMap m a q) : singleAccountMap m a p := by
  rcases h with h | ⟨r, hm, hr⟩
  · exact Or.inl h
  · exact Or.inr ⟨r, hm, le_trans hpq hr⟩

theorem writeTouch_single (p : Nat) (s : TxState) (a : Pubkey)
    (h : singleAccountMap s.last_access_map a p) :
    (writeTouch p s a).violated_accounts = s.violated_accounts ∧
    (writeTouch p s a).is_violation = s.is_violation ∧
    (writeTouch p s a).last_access_map = [(a, ⟨LastAccess.Write, p⟩)] := by
  rcases h with h | ⟨r, hm, hr⟩
  · have hn : alookup s.last_access_map a = none := by
      rw [h]
      rfl
    rw [writeTouch_of_none p s a hn]
    refine ⟨rfl, rfl, ?_⟩
    rw [h]
    rfl
  · have hs : alookup s.last_access_map a = some r := by
      rw [hm]
      simp [alookup]
    have hge : ¬ r.priority < p := Nat.not_lt.mpr hr
    rw [writeTouch_of_ge p s a r hs hge]
    refine ⟨rfl, rfl, ?_⟩
    rw [hm]
    simp [ainsert]

theorem readTouch_single (p : Nat) (s : TxState) (a : Pubkey)
    (h : singleAccountMap s.last_access_map a p) :
    (readTouch p s a).violated_accounts = s.violated_accounts ∧
    (readTouch p s a).is_violation = s.is_violation ∧
    (readTouch p s a).last_access_map = [(a, ⟨LastAccess.Read, p⟩)] := by
  rcases h with h | ⟨r, hm, hr⟩
  · have hn : alookup s.last_access_map a = none := by
      rw [h]
      rfl
    rw [readTouch_of_none p s a hn]
    refine ⟨rfl, rfl, ?_⟩
    rw [h]
    rfl
  · have hs : alookup s.last_access_map a = some r := by
      rw [hm]
      simp [alookup]
    have hc : ¬ (r.last_access = LastAccess.Write ∧ r.priority < p) := by
      rintro ⟨-, hlt⟩
      exact Nat.not_lt.mpr hr hlt
    rw [readTouch_of_noConflict p s a r hs hc]
    refine ⟨rfl, rfl, ?_⟩
    rw [hm]
    simp [ainsert]

theorem foldl_writeTouch_single (p : Nat) (a : Pubkey) (l : List Pubkey) :
    ∀ s : TxState, (∀ x ∈ l, x = a) → singleAccountMap s.last_access_map a p →
    (l.foldl (writeTouch p) s).violated_accounts = s.violated_accounts ∧
    (l.foldl (writeTouch p) s).is_violation = s.is_violation ∧
    singleAccountMap (l.foldl (writeTouch p) s).last_access_map a p := by
  induction l with
  | nil =>
      intro s _ h
      exact ⟨rfl, rfl, h⟩
  | cons x l ih =>
      intro s hl h
      have hx : x = a := hl x (List.mem_cons_self _ _)
      subst hx
      obtain ⟨h1, h2, h3⟩ := writeTouch_single p s x h
      have hsingle : singleAccountMap (writeTouch p s x).last_access_map x p :=
        Or.inr ⟨⟨LastAccess.Write, p⟩, h3, le_refl p⟩
      obtain ⟨h4, h5, h6⟩ :=
        ih (writeTouch p s x) (fun y hy => hl y (List.mem_cons_of_mem _ hy)) hsingle
      simp only [List.foldl_cons]
      exact ⟨h4.trans h1, h5.trans h2, h6⟩

theorem foldl_readTouch_single (p : Nat) (a : Pubkey) (l : List Pubkey) :
    ∀ s : TxState, (∀ x ∈ l, x = a) → singleAccountMap s.last_access_map a p →
    (l.foldl (readTouch p) s).violated_accounts = s.violated_accounts ∧
    (l.foldl (readTouch p) s).is_violation = s.is_violation ∧
    singleAccountMap (l.foldl (readTouch p) s).last_access_map a p := by
  induction l with
  | nil =>
      intro s _ h
      exact ⟨rfl, rfl, h⟩
  | cons x l ih =>
      intro s hl h
      have hx : x = a := hl x (List.mem_cons_self _ _)
      subst hx
      obtain ⟨h1, h2, h3⟩ := readTouch_single p s x h
      have hsingle : singleAccountMap (readTouch p s x).last_access_map x p :=
        Or.inr ⟨⟨LastAccess.Read, p⟩, h3, le_refl p⟩
      obtain ⟨h4, h5, h6⟩ :=
        ih (readTouch p s x) (fun y hy => hl y (List.mem_cons_of_mem _ hy)) hsingle
      simp only [List.foldl_cons]
      exact ⟨h4.trans h1, h5.trans h2, h6⟩

theorem processTransaction_single (ps : PassState) (tx : Transaction) (a : Pubkey)
    (hw : ∀ x ∈ tx.writable, x = a) (hro : ∀ x ∈ tx.readonly, x = a)
    (h : singleAccountMap ps.last_access_map a tx.priority) :
    (processTransaction ps tx).violated_accounts = ps.violated_accounts ∧
    (processTransaction ps tx).violating_transaction_signatures =
      ps.violating_transaction_signatures ∧
    singleAccountMap (processTransaction ps tx).last_access_map a tx.priority := by
  obtain ⟨h1, h2, h3⟩ :=
    foldl_writeTouch_single tx.priority a tx.writable
      ⟨ps.last_access_map, ps.violated_accounts, false⟩ hw h
  obtain ⟨h4, h5, h6⟩ :=
    foldl_readTouch_single tx.priority a tx.readonly
      (tx.writable.foldl (writeTouch tx.priority)
        ⟨ps.last_access_map, ps.violated_accounts, false⟩) hro h3
  have hres : txTouchResult ps tx =
      tx.readonly.foldl (readTouch tx.priority)
        (tx.writable.foldl (writeTouch tx.priority)
          ⟨ps.last_access_map, ps.violated_accounts, false⟩) := rfl
  refine ⟨?_, ?_, ?_⟩
  · show (txTouchResult ps tx).violated_accounts = ps.violated_accounts
    rw [hres, h4, h1]
  · show (if (txTouchResult ps tx).is_violation then _ else _) = _
    rw [hres, h5, h2]
    rfl
  · show singleAccountMap (txTouchResult ps tx).last_access_map a tx.priority
    rw [hres]
    exact h6

theorem runBlockFrom_single (a : Pubkey) (txs : List Transaction) :
    ∀ (ps : PassState) (p₀ : Nat),
    singleAccountMap ps.last_access_map a p₀ →
    List.Chain (fun x y => y ≤ x) p₀ (txs.map Transaction.priority) →
    (∀ tx ∈ txs, (∀ x ∈ tx.writable, x = a) ∧ (∀ x ∈ tx.readonly, x = a)) →
    (runBlockFrom ps txs).violated_accounts = ps.violated_accounts ∧
    (runBlockFrom ps txs).violating_transaction_signatures =
      ps.violating_transaction_signatures := by
  induction txs with
  | nil =>
      intro ps p₀ _ _ _
      exact ⟨rfl, rfl⟩
  | cons tx rest ih =>
      intro ps p₀ hmap hchain htouch
      simp only [List.map_cons] at hchain
      cases hchain with
      | cons hle hchain' =>
          obtain ⟨hw, hro⟩ := htouch tx (List.mem_cons_self _ _)
          have hmap' := singleAccountMap_mono _ _ _ _ hle hmap
          obtain ⟨h1, h2, h3⟩ := processTransaction_single ps tx a hw hro hmap'
          simp only [runBlockFrom, List.foldl_cons]
          obtain ⟨h4, h5⟩ := ih (processTransaction ps tx) tx.priority h3 hchain'
            (fun t ht => htouch t (List.mem_cons_of_mem _ ht))
          simp only [runBlockFrom] at h4 h5
          exact ⟨h4.trans h1, h5.trans h2⟩

/-! ## Resolver lemmas -/

theorem get_priority_skip (ix : Instruction) (l : List Instruction)
    (h : ¬ recognizedDirective ix) : get_priority (ix :: l) = get_priority l := by
  cases ix with
  | requestUnitsDeprecated u f => exact absurd trivial h
  | setComputeUnitPrice q => exact absurd trivial h
  | unrecognizedComputeBudget => rfl
  | otherProgram => rfl

theorem get_priority_first (pre : List Instruction) (d : Instruction)
    (rest : List Instruction) (hpre : ∀ ix ∈ pre, ¬ recognizedDirective ix)
    (hd : recognizedDirective d) :
    get_priority (pre ++ d :: rest) = directivePriority d := by
  induction pre with
  | nil =>
      cases d with
      | requestUnitsDeprecated u f => rfl
      | setComputeUnitPrice q => rfl
      | unrecognizedComputeBudget => exact hd.elim
      | otherProgram => exact hd.elim
  | cons ix pre ih =>
      rw [List.cons_append, get_priority_skip ix _ (hpre ix (List.mem_cons_self _ _))]
      exact ih (fun i hi => hpre i (List.mem_cons_of_mem _ hi))

theorem get_priority_defaults (l : List Instruction)
    (h : ∀ ix ∈ l, ¬ recognizedDirective ix) : get_priority l = some 0 := by
  induction l with
  | nil => rfl
  | cons ix l ih =>
      rw [get_priority_skip ix l (h ix (List.mem_cons_self _ _))]
      exact ih (fun i hi => h i (List.mem_cons_of_mem _ hi))

theorem saturatingMul_no_overflow (fee : Nat) (hf : fee < 2 ^ 64) :
    saturatingMulU128 fee 1000000 = fee * 1000000 := by
  unfold saturatingMulU128 U128_MAX
  apply min_eq_left
  calc fee * 1000000 ≤ (2 ^ 64 - 1) * 1000000 :=
        Nat.mul_le_mul_right _ (by omega)
    _ ≤ 2 ^ 128 - 1 := by norm_num

/-! ## The claims -/

/-- C1, counterexample: in the block T1 (priority 10, writes accounts 1 and 2)
then T2 (priority 20, writes accounts 1 and 2), the violated-accounts mapping
holds two violation entries, but the count the program reports (the length of
the violating-transaction list, printed both in count-only mode and as N in
the full-report header) is 1, so the reported count does not equal the sum of
entries. -/
theorem C1_counterexample :
    reportedViolationCount
        (runBlock [⟨0, 10, [1, 2], []⟩, ⟨1, 20, [1, 2], []⟩]) = 1 ∧
    totalViolationEntries
        (runBlock [⟨0, 10, [1, 2], []⟩, ⟨1, 20, [1, 2], []⟩]) = 2 ∧
    (1 : Nat) ≠ 2 := by
  decide

/-- C1, amended: the total violation count reported (printed alone in
count-only mode, and as N in the full-report header line) equals the number
of transactions that produced at least one violation entry, not the sum of
ViolationEntry items across all accounts (which can be larger). -/
theorem C1_reported_count (txs : List Transaction) :
    reportedViolationCount (runBlock txs) =
      countViolatingTransactions initialState txs := by
  have h := runBlockFrom_sigs_length txs initialState
  simpa [reportedViolationCount, runBlock, initialState] using h

/-- C2: for a write touch on account a by a transaction of priority p: with
no record, no violation is recorded and the record (Write, p) is created;
with a record r, a violation entry (r.priority, p) is appended and the flag
set exactly when r.priority < p; in every case the record becomes (Write, p);
and the stored access kind of the prior record has no effect on the
outcome. -/
theorem C2_write_touch_rule (s : TxState) (a : Pubkey) (p : Nat) :
    (alookup s.last_access_map a = none →
      writeTouch p s a =
        { s with last_access_map :=
            ainsert s.last_access_map a ⟨LastAccess.Write, p⟩ }) ∧
    (∀ r, alookup s.last_access_map a = some r →
      (writeTouch p s a).last_access_map =
          ainsert s.last_access_map a ⟨LastAccess.Write, p⟩ ∧
      (r.priority < p →
        (writeTouch p s a).violated_accounts =
            apush s.violated_accounts a (r.priority, p) ∧
        (writeTouch p s a).is_violation = true) ∧
      (¬ r.priority < p →
        (writeTouch p s a).violated_accounts = s.violated_accounts ∧
        (writeTouch p s a).is_violation = s.is_violation)) ∧
    (∀ (m : List (Pubkey × LastAccessPriority))
        (v : List (Pubkey × List (Nat × Nat))) (f : Bool) (p₀ : Nat)
        (k₁ k₂ : LastAccess),
      writeTouch p ⟨ainsert m a ⟨k₁, p₀⟩, v, f⟩ a =
        writeTouch p ⟨ainsert m a ⟨k₂, p₀⟩, v, f⟩ a) := by
  refine ⟨fun h => writeTouch_of_none p s a h, fun r h => ?_,
    fun m v f p₀ k₁ k₂ => ?_⟩
  · refine ⟨writeTouch_last_access_map p s a, fun hlt => ?_, fun hge => ?_⟩
    · rw [writeTouch_of_lt p s a r h hlt]
      exact ⟨rfl, rfl⟩
    · rw [writeTouch_of_ge p s a r h hge]
      exact ⟨rfl, rfl⟩
  · by_cases hlt : p₀ < p
    · rw [writeTouch_of_lt p ⟨ainsert m a ⟨k₁, p₀⟩, v, f⟩ a ⟨k₁, p₀⟩
          (alookup_ainsert_self m a _) hlt,
        writeTouch_of_lt p ⟨ainsert m a ⟨k₂, p₀⟩, v, f⟩ a ⟨k₂, p₀⟩
          (alookup_ainsert_self m a _) hlt]
      simp [ainsert_ainsert]
    · rw [writeTouch_of_ge p ⟨ainsert m a ⟨k₁, p₀⟩, v, f⟩ a ⟨k₁, p₀⟩
          (alookup_ainsert_self m a _) hlt,
        writeTouch_of_ge p ⟨ainsert m a ⟨k₂, p₀⟩, v, f⟩ a ⟨k₂, p₀⟩
          (alookup_ainsert_self m a _) hlt]
      simp [ainsert_ainsert]

/-- C2, witness: concrete instances of the write-touch rule, at a vacant
entry and at an occupied lower-priority entry. -/
theorem C2_write_touch_rule_witness :
    writeTouch 5 ⟨[], [], false⟩ 1 =
      ⟨ainsert [] 1 ⟨LastAccess.Write, 5⟩, [], false⟩ ∧
    (writeTouch 7 ⟨[(1, ⟨LastAccess.Read, 3⟩)], [], false⟩ 1).violated_accounts =
      apush [] 1 (3, 7) ∧
    (writeTouch 7 ⟨[(1, ⟨LastAccess.Read, 3⟩)], [], false⟩ 1).is_violation = true :=
  ⟨(C2_write_touch_rule ⟨[], [], false⟩ 1 5).1 rfl,
    (((C2_write_touch_rule ⟨[(1, ⟨LastAccess.Read, 3⟩)], [], false⟩ 1 7).2.1
        ⟨LastAccess.Read, 3⟩ (by decide)).2.1 (by decide)).1,
    (((C2_write_touch_rule ⟨[(1, ⟨LastAccess.Read, 3⟩)], [], false⟩ 1 7).2.1
        ⟨LastAccess.Read, 3⟩ (by decide)).2.1 (by decide)).2⟩

/-- C3: for a read touch on account a by a transaction of priority p: with
no record, no violation is recorded and the record (Read, p) is created;
with a record r, a violation entry (r.priority, p) is appended and the flag
set exactly when r.last_access is Write and r.priority < p; a read following
a prior read never violates regardless of relative priority; and in every
case the record becomes (Read, p). -/
theorem C3_read_touch_rule (s : TxState) (a : Pubkey) (p : Nat) :
    (alookup s.last_access_map a = none →
      readTouch p s a =
        { s with last_access_map :=
            ainsert s.last_access_map a ⟨LastAccess.Read, p⟩ }) ∧
    (∀ r, alookup s.last_access_map a = some r →
      (readTouch p s a).last_access_map =
          ainsert s.last_access_map a ⟨LastAccess.Read, p⟩ ∧
      (r.last_access = LastAccess.Write ∧ r.priority < p →
        (readTouch p s a).violated_accounts =
            apush s.violated_accounts a (r.priority, p) ∧
        (readTouch p s a).is_violation = true) ∧
      (¬ (r.last_access = LastAccess.Write ∧ r.priority < p) →
        (readTouch p s a).violated_accounts = s.violated_accounts ∧
        (readTouch p s a).is_violation = s.is_violation) ∧
      (r.last_access = LastAccess.Read →
        (readTouch p s a).violated_accounts = s.violated_accounts ∧
        (readTouch p s a).is_violation = s.is_violation)) := by
  refine ⟨fun h => readTouch_of_none p s a h, fun r h => ?_⟩
  refine ⟨readTouch_last_access_map p s a, fun hc => ?_, fun hc => ?_, fun hr => ?_⟩
  · rw [readTouch_of_writeLt p s a r h hc]
    exact ⟨rfl, rfl⟩
  · rw [readTouch_of_noConflict p s a r h hc]
    exact ⟨rfl, rfl⟩
  · have hc : ¬ (r.last_access = LastAccess.Write ∧ r.priority < p) := by
      rintro ⟨hw, -⟩
      rw [hr] at hw
      cases hw
    rw [readTouch_of_noConflict p s a r h hc]
    exact ⟨rfl, rfl⟩

/-- C3, witness: concrete instances of the read-touch rule: a vacant entry,
a read after a lower-priority write (violation), and a read after a
lower-priority read (no violation). -/
theorem C3_read_touch_rule_witness :
    readTouch 5 ⟨[], [], false⟩ 1 =
      ⟨ainsert [] 1 ⟨LastAccess.Read, 5⟩, [], false⟩ ∧
    (readTouch 7 ⟨[(1, ⟨LastAccess.Write, 3⟩)], [], false⟩ 1).violated_accounts =
      apush [] 1 (3, 7) ∧
    (readTouch 7 ⟨[(1, ⟨LastAccess.Read, 3⟩)], [], false⟩ 1).violated_accounts = [] ∧
    (readTouch 7 ⟨[(1, ⟨LastAccess.Read, 3⟩)], [], false⟩ 1).is_violation = false :=
  ⟨(C3_read_touch_rule ⟨[], [], false⟩ 1 5).1 rfl,
    (((C3_read_touch_rule ⟨[(1, ⟨LastAccess.Write, 3⟩)], [], false⟩ 1 7).2
        ⟨LastAccess.Write, 3⟩ (by decide)).2.1 ⟨rfl, by decide⟩).1,
    (((C3_read_touch_rule ⟨[(1, ⟨LastAccess.Read, 3⟩)], [], false⟩ 1 7).2
        ⟨LastAccess.Read, 3⟩ (by decide)).2.2.2 rfl).1,
    (((C3_read_touch_rule ⟨[(1, ⟨LastAccess.Read, 3⟩)], [], false⟩ 1 7).2
        ⟨LastAccess.Read, 3⟩ (by decide)).2.2.2 rfl).2⟩

/-- C4, counterexample: T1 (priority 10, writes account 1) then T2
(priority 20, writes account 1) records the single violation entry
(10, 20), whose first (old-priority) component 10 is not greater than its
second (new-priority) component 20 — so entries are ordered old < new, not
old > new as the claim states. -/
theorem C4_counterexample :
    (runBlock [⟨0, 10, [1], []⟩, ⟨1, 20, [1], []⟩]).violated_accounts =
      [(1, [(10, 20)])] ∧
    ¬ (10 : Nat) > 20 := by
  decide

/-- C4, amended: every ViolationEntry recorded in the violated-accounts
mapping is an ordered pair (oldPriority, newPriority) with
oldPriority < newPriority. -/
theorem C4_entries_old_lt_new (txs : List Transaction)
    (kv : Pubkey × List (Nat × Nat)) (e : Nat × Nat)
    (hkv : kv ∈ (runBlock txs).violated_accounts) (he : e ∈ kv.2) :
    e.1 < e.2 := by
  have h0 : entriesIncreasing initialState.violated_accounts := by
    intro kv h
    simp [initialState] at h
  exact runBlockFrom_entriesIncreasing txs initialState h0 kv hkv e he

/-- C4, witness: the amended claim evaluated on the counterexample block:
the entry (10, 20) recorded under account 1 satisfies 10 < 20. -/
theorem C4_entries_old_lt_new_witness :
    ((1 : Pubkey), [((10 : Nat), (20 : Nat))]) ∈
      (runBlock [⟨0, 10, [1], []⟩, ⟨1, 20, [1], []⟩]).violated_accounts ∧
    ((10 : Nat), (20 : Nat)).1 < ((10 : Nat), (20 : Nat)).2 :=
  ⟨by decide,
    C4_entries_old_lt_new [⟨0, 10, [1], []⟩, ⟨1, 20, [1], []⟩]
      (1, [(10, 20)]) (10, 20) (by decide) (by decide)⟩

/-- C5: within one transaction all write touches are applied before any
read touch, so a transaction of priority p that writes and reads the same
account a, whose prior record is a write of lower priority p₀, produces
exactly one new violation entry (p₀, p) — from its write; its own read is
checked against the record already updated by its own write (priority p,
not p₀) and therefore adds nothing — and leaves the record at (Read, p). -/
theorem C5_reads_see_own_writes (m : List (Pubkey × LastAccessPriority))
    (v : List (Pubkey × List (Nat × Nat))) (sigs : List Signature)
    (a : Pubkey) (p₀ p : Nat) (sig : Signature)
    (h : alookup m a = some ⟨LastAccess.Write, p₀⟩) (hlt : p₀ < p) :
    (processTransaction ⟨m, v, sigs⟩ ⟨sig, p, [a], [a]⟩).violated_accounts =
        apush v a (p₀, p) ∧
    alookup (processTransaction ⟨m, v, sigs⟩
        ⟨sig, p, [a], [a]⟩).violated_accounts a =
      some ((alookup v a).getD [] ++ [(p₀, p)]) ∧
    alookup (processTransaction ⟨m, v, sigs⟩
        ⟨sig, p, [a], [a]⟩).last_access_map a =
      some ⟨LastAccess.Read, p⟩ ∧
    (processTransaction ⟨m, v, sigs⟩
        ⟨sig, p, [a], [a]⟩).violating_transaction_signatures = sigs ++ [sig] := by
  have h1 : writeTouch p ⟨m, v, false⟩ a =
      ⟨ainsert m a ⟨LastAccess.Write, p⟩, apush v a (p₀, p), true⟩ :=
    writeTouch_of_lt p ⟨m, v, false⟩ a ⟨LastAccess.Write, p₀⟩ h hlt
  have h2 : readTouch p
      (⟨ainsert m a ⟨LastAccess.Write, p⟩, apush v a (p₀, p), true⟩ : TxState) a =
      ⟨ainsert (ainsert m a ⟨LastAccess.Write, p⟩) a ⟨LastAccess.Read, p⟩,
        apush v a (p₀, p), true⟩ := by
    rw [readTouch_of_noConflict p _ a ⟨LastAccess.Write, p⟩
      (alookup_ainsert_self m a _) (by rintro ⟨-, hpp⟩; exact lt_irrefl p hpp)]
  have hfin : txTouchResult ⟨m, v, sigs⟩ ⟨sig, p, [a], [a]⟩ =
      ⟨ainsert (ainsert m a ⟨LastAccess.Write, p⟩) a ⟨LastAccess.Read, p⟩,
        apush v a (p₀, p), true⟩ := by
    show readTouch p (writeTouch p ⟨m, v, false⟩ a) a = _
    rw [h1, h2]
  have hPT : processTransaction ⟨m, v, sigs⟩ ⟨sig, p, [a], [a]⟩ =
      ⟨ainsert (ainsert m a ⟨LastAccess.Write, p⟩) a ⟨LastAccess.Read, p⟩,
        apush v a (p₀, p), sigs ++ [sig]⟩ := by
    show (⟨(txTouchResult ⟨m, v, sigs⟩ ⟨sig, p, [a], [a]⟩).last_access_map,
        (txTouchResult ⟨m, v, sigs⟩ ⟨sig, p, [a], [a]⟩).violated_accounts,
        if (txTouchResult ⟨m, v, sigs⟩ ⟨sig, p, [a], [a]⟩).is_violation
        then sigs ++ [sig] else sigs⟩ : PassState) = _
    rw [hfin]
    rfl
  rw [hPT]
  refine ⟨rfl, ?_, ?_, rfl⟩
  · exact alookup_apush_self v a (p₀, p)
  · exact alookup_ainsert_self _ a _

/-- C5, witness: the write-then-read transaction of priority 5 on account 1
whose prior record is a write of priority 3 yields exactly the one entry
(3, 5). -/
theorem C5_reads_see_own_writes_witness :
    (processTransaction ⟨[(1, ⟨LastAccess.Write, 3⟩)], [], []⟩
        ⟨9, 5, [1], [1]⟩).violated_accounts = apush [] 1 (3, 5) ∧
    alookup (processTransaction ⟨[(1, ⟨LastAccess.Write, 3⟩)], [], []⟩
        ⟨9, 5, [1], [1]⟩).last_access_map 1 = some ⟨LastAccess.Read, 5⟩ :=
  ⟨(C5_reads_see_own_writes [(1, ⟨LastAccess.Write, 3⟩)] [] [] 1 3 5 9
      (by decide) (by decide)).1,
    (C5_reads_see_own_writes [(1, ⟨LastAccess.Write, 3⟩)] [] [] 1 3 5 9
      (by decide) (by decide)).2.2.1⟩

/-- C6: get_priority scans the instruction list in order and returns the
priority computed from the first recognized compute-budget directive,
ignoring all later directives of either kind; a set-compute-unit-price
directive of value V with no earlier recognized directive yields priority
V; unrecognized discriminants under the compute-budget program id are
silently skipped; and with no recognized directive anywhere the result
is 0. -/
theorem C6_first_directive_wins :
    (∀ (pre : List Instruction) (d : Instruction) (rest : List Instruction),
      (∀ ix ∈ pre, ¬ recognizedDirective ix) → recognizedDirective d →
      get_priority (pre ++ d :: rest) = directivePriority d) ∧
    (∀ (V : Nat) (pre rest : List Instruction),
      (∀ ix ∈ pre, ¬ recognizedDirective ix) →
      get_priority (pre ++ Instruction.setComputeUnitPrice V :: rest) = some V) ∧
    (∀ l : List Instruction, (∀ ix ∈ l, ¬ recognizedDirective ix) →
      get_priority l = some 0) :=
  ⟨get_priority_first,
    fun V pre rest h =>
      get_priority_first pre (Instruction.setComputeUnitPrice V) rest h trivial,
    get_priority_defaults⟩

/-- C6, witness: a price directive of value 42 preceded only by skipped
instructions and followed by a further directive resolves to 42; a list
with no recognized directive resolves to 0. -/
theorem C6_first_directive_wins_witness :
    (∀ ix ∈ [Instruction.otherProgram, Instruction.unrecognizedComputeBudget],
      ¬ recognizedDirective ix) ∧
    get_priority [Instruction.otherProgram, Instruction.unrecognizedComputeBudget,
      Instruction.setComputeUnitPrice 42,
      Instruction.requestUnitsDeprecated 3 7] = some 42 ∧
    get_priority [Instruction.otherProgram] = some 0 :=
  ⟨by decide,
    C6_first_directive_wins.2.1 42
      [Instruction.otherProgram, Instruction.unrecognizedComputeBudget]
      [Instruction.requestUnitsDeprecated 3 7] (by decide),
    C6_first_directive_wins.2.2 [Instruction.otherProgram] (by decide)⟩

/-- C7: a first-recognized deprecated request-units directive carrying
(units, additional_fee) in their u32/u64 ranges resolves to exactly
floor(additional_fee * 1000000 / units), computed in the widened u128
domain without saturating, and the computation fails (fatal error, modelled
as none) exactly when units is zero or the quotient does not fit in an
unsigned 64-bit integer. -/
theorem C7_deprecated_request_arithmetic (units additional_fee : Nat)
    (_hu : units < 2 ^ 32) (hf : additional_fee < 2 ^ 64) :
    get_priority [Instruction.requestUnitsDeprecated units additional_fee] =
      if units = 0 ∨ 2 ^ 64 ≤ additional_fee * 1000000 / units then none
      else some (additional_fee * 1000000 / units) := by
  show requestUnitsPriority units additional_fee = _
  unfold requestUnitsPriority checkedDivU128
  rw [saturatingMul_no_overflow additional_fee hf]
  by_cases h0 : units = 0
  · simp [h0]
  · simp only [h0, if_false, false_or]
    split_ifs <;> first | rfl | omega

/-- C7, witness: units 3, additional fee 7: the resolver returns
floor(7000000 / 3) = 2333333. -/
theorem C7_deprecated_request_arithmetic_witness :
    ((3 : Nat) < 2 ^ 32 ∧ (7 : Nat) < 2 ^ 64) ∧
    get_priority [Instruction.requestUnitsDeprecated 3 7] = some 2333333 :=
  ⟨⟨by decide, by decide⟩, by
    rw [C7_deprecated_request_arithmetic 3 7 (by decide) (by decide)]
    decide⟩

/-- C8: a block whose transactions touch only the single account a, with
non-increasing priorities, in any pattern of writable and readonly touches,
records zero violations: both the violated-accounts mapping and the
violating-transaction collection stay empty. -/
theorem C8_monotone_single_account (a : Pubkey) (txs : List Transaction)
    (hchain : List.Chain' (fun x y => y ≤ x) (txs.map Transaction.priority))
    (htouch : ∀ tx ∈ txs, (∀ x ∈ tx.writable, x = a) ∧ (∀ x ∈ tx.readonly, x = a)) :
    (runBlock txs).violated_accounts = [] ∧
    (runBlock txs).violating_transaction_signatures = [] := by
  cases txs with
  | nil => exact ⟨rfl, rfl⟩
  | cons tx rest =>
      rw [List.map_cons] at hchain
      have hc : List.Chain (fun x y => y ≤ x) tx.priority
          (rest.map Transaction.priority) := hchain
      have hchain0 : List.Chain (fun x y => y ≤ x) tx.priority
          ((tx :: rest).map Transaction.priority) := by
        rw [List.map_cons]
        exact List.Chain.cons (le_refl tx.priority) hc
      obtain ⟨h1, h2⟩ := runBlockFrom_single a (tx :: rest) initialState tx.priority
        (Or.inl rfl) hchain0 htouch
      exact ⟨h1, h2⟩

/-- C8, witness: three transactions of priorities 5, 5, 3 all touching only
account 7 in mixed patterns produce no violations. -/
theorem C8_monotone_single_account_witness :
    List.Chain' (fun x y => y ≤ x)
      (([⟨0, 5, [7], [7]⟩, ⟨1, 5, [], [7]⟩, ⟨2, 3, [7], [7]⟩] :
        List Transaction).map Transaction.priority) ∧
    (runBlock [⟨0, 5, [7], [7]⟩, ⟨1, 5, [], [7]⟩,
      ⟨2, 3, [7], [7]⟩]).violated_accounts = [] ∧
    (runBlock [⟨0, 5, [7], [7]⟩, ⟨1, 5, [], [7]⟩,
      ⟨2, 3, [7], [7]⟩]).violating_transaction_signatures = [] :=
  ⟨by simp [List.chain'_cons],
    (C8_monotone_single_account 7
      [⟨0, 5, [7], [7]⟩, ⟨1, 5, [], [7]⟩, ⟨2, 3, [7], [7]⟩]
      (by simp [List.chain'_cons]) (by decide)).1,
    (C8_monotone_single_account 7
      [⟨0, 5, [7], [7]⟩, ⟨1, 5, [], [7]⟩, ⟨2, 3, [7], [7]⟩]
      (by simp [List.chain'_cons]) (by decide)).2⟩

/-- C9: the access map keeps unique keys through a transaction, and after a
transaction every account it touched holds that transaction's priority with
the access kind of the last phase that touched it (Read if the account is in
the readonly list, since reads run after writes; Write if only in the
writable list), while untouched accounts keep their records. -/
theorem C9_access_map_invariant (ps : PassState) (tx : Transaction) (a : Pubkey) :
    ((ps.last_access_map.map Prod.fst).Nodup →
      ((processTransaction ps tx).last_access_map.map Prod.fst).Nodup) ∧
    (a ∈ tx.readonly →
      alookup (processTransaction ps tx).last_access_map a =
        some ⟨LastAccess.Read, tx.priority⟩) ∧
    (a ∈ tx.writable → a ∉ tx.readonly →
      alookup (processTransaction ps tx).last_access_map a =
        some ⟨LastAccess.Write, tx.priority⟩) ∧
    (a ∉ tx.writable → a ∉ tx.readonly →
      alookup (processTransaction ps tx).last_access_map a =
        alookup ps.last_access_map a) := by
  have hmap : (processTransaction ps tx).last_access_map =
      (txTouchResult ps tx).last_access_map := rfl
  refine ⟨fun h => ?_, fun h => ?_, fun hw hr => ?_, fun hw hr => ?_⟩
  · rw [hmap]
    exact txTouchResult_nodup ps tx h
  · rw [hmap, txTouchResult_alookup]
    simp [h]
  · rw [hmap, txTouchResult_alookup]
    simp [hw, hr]
  · rw [hmap, txTouchResult_alookup]
    simp [hw, hr]

/-- C9, witness: the transaction of priority 5 writing account 1 and
reading account 2 over a map holding account 3: account 2 ends at
(Read, 5), account 1 at (Write, 5), account 3 is unchanged, and the keys
stay unique. -/
theorem C9_access_map_invariant_witness :
    alookup (processTransaction ⟨[(3, ⟨LastAccess.Read, 9⟩)], [], []⟩
        ⟨0, 5, [1], [2]⟩).last_access_map 2 = some ⟨LastAccess.Read, 5⟩ ∧
    alookup (processTransaction ⟨[(3, ⟨LastAccess.Read, 9⟩)], [], []⟩
        ⟨0, 5, [1], [2]⟩).last_access_map 1 = some ⟨LastAccess.Write, 5⟩ ∧
    alookup (processTransaction ⟨[(3, ⟨LastAccess.Read, 9⟩)], [], []⟩
        ⟨0, 5, [1], [2]⟩).last_access_map 3 =
      alookup [(3, ⟨LastAccess.Read, 9⟩)] 3 ∧
    ((processTransaction ⟨[(3, ⟨LastAccess.Read, 9⟩)], [], []⟩
        ⟨0, 5, [1], [2]⟩).last_access_map.map Prod.fst).Nodup :=
  ⟨(C9_access_map_invariant ⟨[(3, ⟨LastAccess.Read, 9⟩)], [], []⟩
      ⟨0, 5, [1], [2]⟩ 2).2.1 (by decide),
    (C9_access_map_invariant ⟨[(3, ⟨LastAccess.Read, 9⟩)], [], []⟩
      ⟨0, 5, [1], [2]⟩ 1).2.2.1 (by decide) (by decide),
    (C9_access_map_invariant ⟨[(3, ⟨LastAccess.Read, 9⟩)], [], []⟩
      ⟨0, 5, [1], [2]⟩ 3).2.2.2 (by decide) (by decide),
    (C9_access_map_invariant ⟨[(3, ⟨LastAccess.Read, 9⟩)], [], []⟩
      ⟨0, 5, [1], [2]⟩ 0).1 (by decide)⟩

/-- C10: a transaction's signature is appended to the violating-transaction
collection exactly once when the transaction produced one or more violation
entries across its touched accounts (however many entries it produced), and
not at all when it produced none. -/
theorem C10_signature_once (ps : PassState) (tx : Transaction) :
    (processTransaction ps tx).violating_transaction_signatures =
      (if totalViolationEntries ps < totalViolationEntries (processTransaction ps tx)
       then ps.violating_transaction_signatures ++ [tx.signature]
       else ps.violating_transaction_signatures) ∧
    (processTransaction ps tx).violating_transaction_signatures.count tx.signature =
      ps.violating_transaction_signatures.count tx.signature +
        (if totalViolationEntries ps < totalViolationEntries (processTransaction ps tx)
         then 1 else 0) := by
  have h := processTransaction_sigs ps tx
  refine ⟨h, ?_⟩
  rw [h]
  by_cases hv : totalViolationEntries ps <
      totalViolationEntries (processTransaction ps tx) <;> simp [hv]

end PriorityChecker
